import Mathlib

/-!
Verification of the availability-aggregation and range-detection engine of
`run.py` (recreation.gov campsite checker), via a shallow embedding.

Modelling conventions:
* Calendar dates are represented by their proleptic Gregorian ordinal
  (CPython's `date.toordinal`), a natural number.  The program converts
  between ISO date strings and ordinals with `strptime`/`strftime`, which
  are mutually inverse bijections on valid dates, so list membership and
  equality tests on date strings coincide with the same tests on ordinals.
* Python `datetime` ordering on parsed dates coincides with `≤` on ordinals.
* Dictionaries are modelled as insertion-ordered association lists, matching
  CPython semantics (`dict.setdefault` appends a fresh key at the end).
-/

/-- Leap-year test, as in CPython's `datetime` module. -/
def isLeapYear (y : ℕ) : Bool :=
  y % 4 == 0 && (y % 100 != 0 || y % 400 == 0)

/-- Number of days in month `m` (1-based) of year `y`, as in CPython. -/
def daysInMonth (y m : ℕ) : ℕ :=
  if m = 2 then (if isLeapYear y then 29 else 28)
  else if m = 4 ∨ m = 6 ∨ m = 9 ∨ m = 11 then 30
  else 31

/-- Days in year `y` before the first day of month `m` (1-based). -/
def daysBeforeMonth (y m : ℕ) : ℕ :=
  ((List.range (m - 1)).map (fun i => daysInMonth y (i + 1))).foldl (· + ·) 0

/-- Days before January 1 of year `y` in the proleptic Gregorian calendar. -/
def daysBeforeYear (y : ℕ) : ℕ :=
  365 * (y - 1) + (y - 1) / 4 - (y - 1) / 100 + (y - 1) / 400

/-- CPython's `date(y, m, d).toordinal()`: day 1 is 0001-01-01. -/
def toordinal (y m d : ℕ) : ℕ :=
  daysBeforeYear y + daysBeforeMonth y m + d

/-- CPython's `date.weekday()` as a function of the ordinal:
Monday is 0 and Sunday is 6 (ordinal 1, 0001-01-01, is a Monday). -/
def weekday (ordinal : ℕ) : ℕ :=
  (ordinal + 6) % 7

/-- `is_weekend` from run.py (lines 108-111): the date's weekday equals 4
(Friday) or 5 (Saturday). -/
def is_weekend (date : ℕ) : Bool :=
  weekday date == 4 || weekday date == 5

/-- The maximal consecutive runs produced by
`groupby(ordinal_dates, lambda x: x - next(c))` in `consecutive_nights`
(run.py lines 179-183): the list is cut exactly between adjacent elements
`a, b` with `b ≠ a + 1`, in the given order, without sorting. -/
def splitConsec : List ℕ → List (List ℕ)
  | [] => []
  | x :: xs =>
    match splitConsec xs with
    | [] => [[x]]
    | [] :: gs => [x] :: gs
    | (y :: g) :: gs =>
      if y = x + 1 then (x :: y :: g) :: gs else [x] :: (y :: g) :: gs

/-- The inner loop of `consecutive_nights` (run.py lines 186-199) for one
consecutive run `r`: if the run is long enough, emit for every start index
the pair (start date, date one past the last night). -/
def emitRun (r : List ℕ) (nights : ℕ) : List (ℕ × ℕ) :=
  if r.length < nights then []
  else (List.range (r.length - nights + 1)).map
    (fun i => (r.getD i 0, r.getD (i + nights - 1) 0 + 1))

/-- `consecutive_nights` from run.py (lines 165-201), over ordinals.
The available-date strings are parsed to ordinals in list order, grouped
into consecutive runs, and each long-enough run is enumerated. -/
def consecutive_nights (available : List ℕ) (nights : ℕ) : List (ℕ × ℕ) :=
  ((splitConsec available).map (fun r => emitRun r nights)).flatten

/-- Insertion step of an insertion sort on ℕ. -/
def insertNat (x : ℕ) : List ℕ → List ℕ
  | [] => [x]
  | y :: ys => if x ≤ y then x :: y :: ys else y :: insertNat x ys

/-- Sorting a list of ordinals ascending. -/
def sortNat (l : List ℕ) : List ℕ :=
  l.foldr insertNat []

/-- Removal of adjacent duplicates (on a sorted list: deduplication). -/
def dedupAdj : List ℕ → List ℕ
  | [] => []
  | [x] => [x]
  | x :: y :: t =>
    if x = y then dedupAdj (y :: t) else x :: dedupAdj (y :: t)

/-- The "sorted, deduplicated ordinals" normalisation named by the spec
(run.py itself never performs it). -/
def sortDedup (l : List ℕ) : List ℕ :=
  dedupAdj (sortNat l)

/-- A date range dictionary `{"start": ..., "end": ...}`; the Python key
`"end"` is called `stop` here because `end` is a Lean keyword. -/
structure DateRange where
  start : ℕ
  stop : ℕ
  deriving DecidableEq, Repr

/-- The candidate dates `[end_date - timedelta(days=i) for i in
range(1, num_days + 1)]` of `get_num_available_sites` (run.py line 121):
ordinals `end_date - 1` down to `start_date`. -/
def windowDates (start_date end_date : ℕ) : List ℕ :=
  (List.range (end_date - start_date)).map (fun i => end_date - 1 - i)

/-- The nights clamp of `get_num_available_sites` (run.py lines 131-133):
`if nights not in range(1, num_days + 1): nights = num_days`.
`none` models an absent (`None`) nights argument. -/
def clampNights (nights : Option ℤ) (num_days : ℕ) : ℕ :=
  match nights with
  | none => num_days
  | some n => if 1 ≤ n ∧ n ≤ (num_days : ℤ) then n.toNat else num_days

/-- `available_dates_by_campsite_id[site].append(...)` repeated over a list
of ranges: `defaultdict(list)` semantics on an insertion-ordered
association list.  The key is created only when this is called. -/
def setAppend (m : List (ℕ × List DateRange)) (k : ℕ) (rs : List DateRange) :
    List (ℕ × List DateRange) :=
  match m with
  | [] => [(k, rs)]
  | (k2, v) :: t =>
    if k2 = k then (k2, v ++ rs) :: t else (k2, v) :: setAppend t k rs

/-- Per-site step of the loop in `get_num_available_sites`
(run.py lines 136-160). -/
def siteStep (dates : List ℕ) (n : ℕ)
    (acc : ℕ × List (ℕ × List DateRange)) (site : ℕ × List ℕ) :
    ℕ × List (ℕ × List DateRange) :=
  let desired_available := site.2.filter (fun d => decide (d ∈ dates))
  if desired_available.isEmpty then acc
  else
    let rs := consecutive_nights desired_available n
    if rs.isEmpty then acc
    else (acc.1 + 1, setAppend acc.2 site.1 (rs.map (fun p => DateRange.mk p.1 p.2)))

/-- `get_num_available_sites` from run.py (lines 114-162), over ordinals.
Returns `(num_available, maximum, available_dates_by_campsite_id)`. -/
def get_num_available_sites (park_information : List (ℕ × List ℕ))
    (start_date end_date : ℕ) (nights : Option ℤ) (weekends_only : Bool) :
    ℕ × ℕ × List (ℕ × List DateRange) :=
  let maximum := park_information.length
  let num_days := end_date - start_date
  let dates0 := windowDates start_date end_date
  let dates := if weekends_only then dates0.filter is_weekend else dates0
  let n := clampNights nights num_days
  let res := park_information.foldl (siteStep dates n) (0, [])
  (res.1, maximum, res.2)

/-- One campsite's record inside a monthly availability payload. -/
structure CampsiteData where
  campsite_id : ℤ
  campsite_type : String
  availabilities : List (String × String)
  deriving DecidableEq, Repr

/-- The dates of one campsite that pass the three per-date filters of
`get_park_information` (run.py lines 84-102): status exactly "Available",
optional campsite-type equality, optional membership in a non-empty
allow-list of numeric ids. -/
def availableOf (cdata : CampsiteData) (campsite_type : Option String)
    (campsite_ids : List ℤ) : List String :=
  (cdata.availabilities.filter (fun dv =>
    dv.2 == "Available" &&
    (match campsite_type with
     | none => true
     | some t => t == cdata.campsite_type) &&
    (campsite_ids.isEmpty || campsite_ids.contains cdata.campsite_id))).map
    (fun dv => dv.1)

/-- `a = data.setdefault(campsite_id, []); if available: a += available`
(run.py lines 83 and 103-104): the key is created (with `[]`) even when
`vs` is empty; an existing key's list is extended. -/
def setdefaultAppend (data : List (String × List String)) (k : String)
    (vs : List String) : List (String × List String) :=
  match data with
  | [] => [(k, vs)]
  | (k2, v) :: t =>
    if k2 = k then (k2, v ++ vs) :: t else (k2, v) :: setdefaultAppend t k vs

/-- Processing of one `(campsite_id, campsite_data)` pair of a monthly
payload in `get_park_information` (run.py lines 79-104): excluded sites
are skipped before anything else; every other site gets its key created
via `setdefault` and its qualifying dates appended. -/
def parkEntryStep (campsite_type : Option String) (campsite_ids : List ℤ)
    (excluded_site_ids : List String) (data : List (String × List String))
    (entry : String × CampsiteData) : List (String × List String) :=
  if excluded_site_ids.contains entry.1 then data
  else setdefaultAppend data entry.1
    (availableOf entry.2 campsite_type campsite_ids)

/-- The aggregation loop of `get_park_information` (run.py lines 76-106):
fold the monthly payloads into an insertion-ordered map from campsite id
to its qualifying available dates, skipping excluded sites. -/
def get_park_information (api_data : List (List (String × CampsiteData)))
    (campsite_type : Option String) (campsite_ids : List ℤ)
    (excluded_site_ids : List String) : List (String × List String) :=
  api_data.foldl (fun data month_data =>
    month_data.foldl
      (parkEntryStep campsite_type campsite_ids excluded_site_ids) data) []

/-- The sort key relation of `sorted(dates, key=lambda x: ...x["start"])`
in `merge_consecutive_dates` (run.py line 236). -/
def rleStart (a b : DateRange) : Prop :=
  a.start ≤ b.start

instance : DecidableRel rleStart := fun a b => Nat.decLe a.start b.start

instance : IsTotal DateRange rleStart :=
  ⟨fun a b => Nat.le_total a.start b.start⟩

instance : IsTrans DateRange rleStart :=
  ⟨fun _ _ _ => Nat.le_trans⟩

/-- `sorted(dates, key=lambda x: ...x["start"])`: a stable sort by start. -/
def sortByStart (dates : List DateRange) : List DateRange :=
  List.insertionSort rleStart dates

/-- The merging fold of `merge_consecutive_dates` (run.py lines 237-248):
`last` is the last accumulated range; a current range overlapping or
touching it (`current.start <= last.end + 1 day`) extends `last.end` to the
later end, otherwise a new accumulated range starts. -/
def mergeFold (last : DateRange) : List DateRange → List DateRange
  | [] => [last]
  | c :: cs =>
    if c.start ≤ last.stop + 1 then
      mergeFold ⟨last.start, max last.stop c.stop⟩ cs
    else last :: mergeFold c cs

/-- `merge_consecutive_dates` from run.py (lines 222-250), over ordinals. -/
def merge_consecutive_dates (dates : List DateRange) : List DateRange :=
  match sortByStart dates with
  | [] => []
  | d :: ds => mergeFold d ds


/-- Insertion step used to model the index permutation that Python's
stable `sorted` applies to the list of dictionary references. -/
def sortIdxInsert (heap : List DateRange) (i : ℕ) : List ℕ → List ℕ
  | [] => [i]
  | j :: js =>
    if (heap.getD i ⟨0, 0⟩).start < (heap.getD j ⟨0, 0⟩).start then i :: j :: js
    else j :: sortIdxInsert heap i js

/-- The stable permutation of positions `0 .. heap.length - 1` ordered by
the `start` field, modelling which dictionary references `sorted_dates`
holds in `merge_consecutive_dates`. -/
def sortIdx (heap : List DateRange) : List ℕ :=
  (List.range heap.length).foldl (fun acc i => sortIdxInsert heap i acc) []

/-- The fold of `merge_consecutive_dates` with the Python aliasing made
explicit: the caller's dictionaries live in `heap`, `lastIdx` is the
reference held by `merged[-1]`, and `last["end"] = max(...)` is a store
into the heap (run.py line 246).  Returns the final heap together with the
references making up `merged`. -/
def mergeHeapFold (heap : List DateRange) (lastIdx : ℕ) :
    List ℕ → List DateRange × List ℕ
  | [] => (heap, [lastIdx])
  | c :: cs =>
    let last := heap.getD lastIdx ⟨0, 0⟩
    let cur := heap.getD c ⟨0, 0⟩
    if cur.start ≤ last.stop + 1 then
      mergeHeapFold (heap.set lastIdx ⟨last.start, max last.stop cur.stop⟩)
        lastIdx cs
    else
      let r := mergeHeapFold heap c cs
      (r.1, lastIdx :: r.2)

/-- `merge_consecutive_dates` with the caller's list modelled as a heap of
dictionaries: the result is the heap after the call (the caller's `dates`
list still points at these cells) and the indices of the merged output. -/
def merge_consecutive_dates_inplace (heap : List DateRange) :
    List DateRange × List ℕ :=
  match sortIdx heap with
  | [] => (heap, [])
  | i :: is => mergeHeapFold heap i is


/-- Decoded JSON values, as compared by `old_json_data != new_json_data` in
`main` (run.py line 467).  Objects are kept in a canonical key-sorted form
(`mkObj` below), mirroring the fact that Python dict equality ignores key
order; a malformed prior file decodes to `null` (Python `None`,
run.py line 465). -/
inductive Json where
  | null
  | bool (b : Bool)
  | num (n : ℤ)
  | str (s : String)
  | arr (xs : List Json)
  | obj (fields : List (String × Json))

mutual

/-- Decidable structural equality on decoded JSON values. -/
def Json.decEq : (a b : Json) → Decidable (a = b)
  | .null, .null => isTrue rfl
  | .bool a, .bool b =>
    match (inferInstance : Decidable (a = b)) with
    | isTrue h => isTrue (h ▸ rfl)
    | isFalse h => isFalse (fun he => h (Json.bool.inj he))
  | .num a, .num b =>
    match (inferInstance : Decidable (a = b)) with
    | isTrue h => isTrue (h ▸ rfl)
    | isFalse h => isFalse (fun he => h (Json.num.inj he))
  | .str a, .str b =>
    match (inferInstance : Decidable (a = b)) with
    | isTrue h => isTrue (h ▸ rfl)
    | isFalse h => isFalse (fun he => h (Json.str.inj he))
  | .arr a, .arr b =>
    match Json.decEqList a b with
    | isTrue h => isTrue (h ▸ rfl)
    | isFalse h => isFalse (fun he => h (Json.arr.inj he))
  | .obj a, .obj b =>
    match Json.decEqFields a b with
    | isTrue h => isTrue (h ▸ rfl)
    | isFalse h => isFalse (fun he => h (Json.obj.inj he))
  | .null, .bool _ => isFalse (fun h => Json.noConfusion h)
  | .null, .num _ => isFalse (fun h => Json.noConfusion h)
  | .null, .str _ => isFalse (fun h => Json.noConfusion h)
  | .null, .arr _ => isFalse (fun h => Json.noConfusion h)
  | .null, .obj _ => isFalse (fun h => Json.noConfusion h)
  | .bool _, .null => isFalse (fun h => Json.noConfusion h)
  | .bool _, .num _ => isFalse (fun h => Json.noConfusion h)
  | .bool _, .str _ => isFalse (fun h => Json.noConfusion h)
  | .bool _, .arr _ => isFalse (fun h => Json.noConfusion h)
  | .bool _, .obj _ => isFalse (fun h => Json.noConfusion h)
  | .num _, .null => isFalse (fun h => Json.noConfusion h)
  | .num _, .bool _ => isFalse (fun h => Json.noConfusion h)
  | .num _, .str _ => isFalse (fun h => Json.noConfusion h)
  | .num _, .arr _ => isFalse (fun h => Json.noConfusion h)
  | .num _, .obj _ => isFalse (fun h => Json.noConfusion h)
  | .str _, .null => isFalse (fun h => Json.noConfusion h)
  | .str _, .bool _ => isFalse (fun h => Json.noConfusion h)
  | .str _, .num _ => isFalse (fun h => Json.noConfusion h)
  | .str _, .arr _ => isFalse (fun h => Json.noConfusion h)
  | .str _, .obj _ => isFalse (fun h => Json.noConfusion h)
  | .arr _, .null => isFalse (fun h => Json.noConfusion h)
  | .arr _, .bool _ => isFalse (fun h => Json.noConfusion h)
  | .arr _, .num _ => isFalse (fun h => Json.noConfusion h)
  | .arr _, .str _ => isFalse (fun h => Json.noConfusion h)
  | .arr _, .obj _ => isFalse (fun h => Json.noConfusion h)
  | .obj _, .null => isFalse (fun h => Json.noConfusion h)
  | .obj _, .bool _ => isFalse (fun h => Json.noConfusion h)
  | .obj _, .num _ => isFalse (fun h => Json.noConfusion h)
  | .obj _, .str _ => isFalse (fun h => Json.noConfusion h)
  | .obj _, .arr _ => isFalse (fun h => Json.noConfusion h)

/-- Decidable equality of JSON array contents. -/
def Json.decEqList : (a b : List Json) → Decidable (a = b)
  | [], [] => isTrue rfl
  | [], _ :: _ => isFalse (fun h => List.noConfusion h)
  | _ :: _, [] => isFalse (fun h => List.noConfusion h)
  | x :: xs, y :: ys =>
    match Json.decEq x y, Json.decEqList xs ys with
    | isTrue h1, isTrue h2 => isTrue (by rw [h1, h2])
    | isFalse h1, _ => isFalse (fun h => h1 (List.cons.inj h).1)
    | _, isFalse h2 => isFalse (fun h => h2 (List.cons.inj h).2)

/-- Decidable equality of JSON object field lists. -/
def Json.decEqFields : (a b : List (String × Json)) → Decidable (a = b)
  | [], [] => isTrue rfl
  | [], _ :: _ => isFalse (fun h => List.noConfusion h)
  | _ :: _, [] => isFalse (fun h => List.noConfusion h)
  | (k, v) :: xs, (k2, v2) :: ys =>
    match (inferInstance : Decidable (k = k2)), Json.decEq v v2,
        Json.decEqFields xs ys with
    | isTrue h1, isTrue h2, isTrue h3 => isTrue (by rw [h1, h2, h3])
    | isFalse h1, _, _ =>
      isFalse (fun h => h1 (congrArg Prod.fst (List.cons.inj h).1))
    | _, isFalse h2, _ =>
      isFalse (fun h => h2 (congrArg Prod.snd (List.cons.inj h).1))
    | _, _, isFalse h3 => isFalse (fun h => h3 (List.cons.inj h).2)

end

instance : DecidableEq Json := Json.decEq

mutual

/-- `json.dumps` with default separators, modelling serialization of a
decoded value (string escaping is not needed for the values at hand). -/
def Json.dumps : Json → String
  | .null => "null"
  | .bool b => if b then "true" else "false"
  | .num n => toString n
  | .str s => "\"" ++ s ++ "\""
  | .arr xs => "[" ++ Json.dumpsList xs ++ "]"
  | .obj fs => "\x7b" ++ Json.dumpsFields fs ++ "\x7d"

/-- Comma-separated serialization of array elements. -/
def Json.dumpsList : List Json → String
  | [] => ""
  | [x] => Json.dumps x
  | x :: y :: t => Json.dumps x ++ ", " ++ Json.dumpsList (y :: t)

/-- Comma-separated serialization of object fields. -/
def Json.dumpsFields : List (String × Json) → String
  | [] => ""
  | [(k, v)] => "\"" ++ k ++ "\": " ++ Json.dumps v
  | (k, v) :: f :: t =>
    "\"" ++ k ++ "\": " ++ Json.dumps v ++ ", " ++ Json.dumpsFields (f :: t)

end


/-- Lexicographic strict order on character lists (by code point). -/
def charListLt : List Char → List Char → Bool
  | [], [] => false
  | [], _ :: _ => true
  | _ :: _, [] => false
  | c :: cs, d :: ds =>
    if c.toNat < d.toNat then true
    else if d.toNat < c.toNat then false
    else charListLt cs ds

/-- Lexicographic strict order on strings. -/
def strLt (a b : String) : Bool :=
  charListLt a.data b.data

/-- The weak key order used to canonicalise decoded objects. -/
def fieldLe (a b : String × Json) : Prop :=
  ¬ strLt b.1 a.1 = true

instance : DecidableRel fieldLe := fun _ _ =>
  instDecidableNot

/-- Canonical (key-sorted) form of an object's fields. -/
def sortFields (fs : List (String × Json)) : List (String × Json) :=
  List.insertionSort fieldLe fs

/-- A decoded JSON object: Python dict equality ignores key order, which
the canonical key-sorted representation makes definitional. -/
def mkObj (fs : List (String × Json)) : Json :=
  Json.obj (sortFields fs)

/-- `old_json_data != new_json_data` in `main` (run.py line 467):
structural inequality of the decoded values. -/
def snapshot_changed (old_json_data new_json_data : Json) : Bool :=
  decide (old_json_data ≠ new_json_data)

/-- One run of the snapshot logic of `main` (run.py lines 459-489) over the
decoded content of `campsites.json`.  `state` is `none` when the file is
absent, otherwise the decoded value of its contents (with `Json.null` for a
malformed file, as `json.load` failure sets `old_json_data = None`).
Returns (reported a difference, wrote the file, state afterwards).
When the file exists and differs, the program writes
`json.dumps(new_json_data, indent=4)`, which decodes back to
`new_json_data`; when the file is absent it writes
`json.dumps(output, indent=4)` where `output` is *already* the serialized
string, so the stored value decodes to a JSON string. -/
def snapshot_step (state : Option Json) (new_json_data : Json) :
    Bool × Bool × Option Json :=
  match state with
  | some old_json_data =>
    if snapshot_changed old_json_data new_json_data then
      (true, true, some new_json_data)
    else (false, false, some old_json_data)
  | none => (false, true, some (.str (Json.dumps new_json_data)))


/-- The set of stay nights covered by a list of ranges: `n` is covered
when some range contains it (inclusive of both endpoints).  Two range
lists merge to the same minimal form exactly when they cover the same
nights. -/
def covers (l : List DateRange) (n : ℕ) : Prop :=
  ∃ r ∈ l, r.start ≤ n ∧ n ≤ r.stop

/-- Every run produced by `splitConsec` is a chain of consecutive ordinals. -/
theorem splitConsec_chain (l : List ℕ) :
    ∀ g ∈ splitConsec l, g.Chain' (fun a b => b = a + 1) := by
  induction l with
  | nil => simp [splitConsec]
  | cons x xs ih =>
    intro g hg
    rw [splitConsec] at hg
    cases h : splitConsec xs with
    | nil =>
      rw [h] at hg
      simp at hg
      subst hg
      simp
    | cons g0 gs =>
      rw [h] at hg
      cases g0 with
      | nil =>
        simp at hg
        rcases hg with rfl | hg
        · simp
        · exact ih g (by rw [h]; exact List.mem_cons_of_mem _ hg)
      | cons y g' =>
        dsimp only at hg
        by_cases hy : y = x + 1
        · rw [if_pos hy] at hg
          rcases List.mem_cons.mp hg with rfl | hg
          · have hc := ih (y :: g') (by rw [h]; exact List.mem_cons_self _ _)
            exact List.chain'_cons.mpr ⟨hy, hc⟩
          · exact ih g (by rw [h]; exact List.mem_cons_of_mem _ hg)
        · rw [if_neg hy] at hg
          rcases List.mem_cons.mp hg with rfl | hg
          · simp
          · exact ih g (by rw [h]; exact hg)

/-- Concatenating the runs of `splitConsec` recovers the input list. -/
theorem splitConsec_flatten (l : List ℕ) : (splitConsec l).flatten = l := by
  induction l with
  | nil => rfl
  | cons x xs ih =>
    rw [splitConsec]
    cases h : splitConsec xs with
    | nil =>
      rw [h] at ih
      simp at ih
      simp [← ih]
    | cons g0 gs =>
      rw [h] at ih
      cases g0 with
      | nil =>
        simp at ih
        simp [ih]
      | cons y g' =>
        dsimp only
        by_cases hy : y = x + 1
        · rw [if_pos hy]
          simp at ih ⊢
          exact ih
        · rw [if_neg hy]
          simp at ih ⊢
          exact ih

/-- Along a chain of consecutive ordinals, the element at index `i` is the
head plus `i`. -/
theorem chain_getD (g : List ℕ) (hc : g.Chain' (fun a b => b = a + 1)) :
    ∀ i, i < g.length → g.getD i 0 = g.getD 0 0 + i := by
  induction g with
  | nil => intro i hi; simp at hi
  | cons a t ih =>
    intro i hi
    cases i with
    | zero => simp
    | succ j =>
      cases t with
      | nil => simp at hi
      | cons b t' =>
        have hb : b = a + 1 := (List.chain'_cons.mp hc).1
        have ht := (List.chain'_cons.mp hc).2
        have := ih ht j (by simpa using hi)
        simp only [List.getD_cons_succ, List.getD_cons_zero] at this ⊢
        omega

/-- C1: for every availability list and every `nights ≥ 1`, each maximal
consecutive run of length `L ≥ nights` found by the detector contributes
exactly `L - nights + 1` candidate ranges; every emitted range's end is
`nights` days after its start (the checkout day, one past the last night);
in particular 5 consecutive days with `nights = 3` give exactly the 3
overlapping 3-day ranges. -/
theorem consecutive_nights_enumeration (available : List ℕ) (nights : ℕ)
    (h1 : 1 ≤ nights) :
    (∀ r ∈ splitConsec available, nights ≤ r.length →
      (emitRun r nights).length = r.length - nights + 1)
    ∧ (∀ p ∈ consecutive_nights available nights, p.2 = p.1 + nights)
    ∧ consecutive_nights [10, 11, 12, 13, 14] 3 =
        [(10, 13), (11, 14), (12, 15)] := by
  refine ⟨?_, ?_, by decide⟩
  · intro r hr hlen
    rw [emitRun, if_neg (by omega)]
    simp
  · intro p hp
    rw [consecutive_nights] at hp
    rw [List.mem_flatten] at hp
    obtain ⟨e, he, hpe⟩ := hp
    rw [List.mem_map] at he
    obtain ⟨r, hr, rfl⟩ := he
    rw [emitRun] at hpe
    split at hpe
    · simp at hpe
    · rename_i hlen
      rw [List.mem_map] at hpe
      obtain ⟨i, hi, rfl⟩ := hpe
      rw [List.mem_range] at hi
      have hc := splitConsec_chain available r hr
      have h2 : i < r.length := by omega
      have h3 : i + nights - 1 < r.length := by omega
      have e1 := chain_getD r hc i h2
      have e2 := chain_getD r hc (i + nights - 1) h3
      simp only at e1 e2 ⊢
      omega

/-- Witness for `consecutive_nights_enumeration` at the spec's 5-day
example input. -/
theorem consecutive_nights_enumeration_witness :
    1 ≤ 3 ∧ consecutive_nights [10, 11, 12, 13, 14] 3 =
      [(10, 13), (11, 14), (12, 15)] :=
  ⟨by decide, (consecutive_nights_enumeration [10, 11, 12, 13, 14] 3
    (by decide)).2.2⟩

/-- C7: an absent (`None`) nights or a nights outside `[1, num_days]` is
silently replaced by `num_days`; a nights inside the interval is used
unchanged. -/
theorem clampNights_spec (n : ℤ) (num_days : ℕ) :
    clampNights none num_days = num_days
    ∧ (1 ≤ n ∧ n ≤ (num_days : ℤ) →
        (clampNights (some n) num_days : ℤ) = n)
    ∧ (¬ (1 ≤ n ∧ n ≤ (num_days : ℤ)) →
        clampNights (some n) num_days = num_days) := by
  refine ⟨rfl, ?_, ?_⟩
  · intro h
    rw [clampNights, if_pos h]
    omega
  · intro h
    rw [clampNights, if_neg h]

/-- Witness for `clampNights_spec`: nights 2 inside a 5-day window is kept,
nights 9 outside it falls back to the window length. -/
theorem clampNights_spec_witness :
    (clampNights (some 2) 5 : ℤ) = 2 ∧ clampNights (some 9) 5 = 5 :=
  ⟨(clampNights_spec 2 5).2.1 (by decide),
   (clampNights_spec 9 5).2.2 (by decide)⟩

/-- C8: `is_weekend` is true exactly on dates sharing a day-of-week with
2024-01-05 (a Friday) or 2024-01-06 (a Saturday), and across the week
2024-01-01..2024-01-07 it is true exactly on those two days. -/
theorem is_weekend_spec :
    (∀ o : ℕ, is_weekend o = true ↔
      (o % 7 = toordinal 2024 1 5 % 7 ∨ o % 7 = toordinal 2024 1 6 % 7))
    ∧ (List.range 7).map (fun i => is_weekend (toordinal 2024 1 (1 + i))) =
      [false, false, false, false, true, true, false] := by
  constructor
  · intro o
    have h5 : toordinal 2024 1 5 % 7 = 5 := by decide
    have h6 : toordinal 2024 1 6 % 7 = 6 := by decide
    rw [h5, h6]
    rw [is_weekend, weekday]
    simp only [Bool.or_eq_true, beq_iff_eq]
    omega
  · decide

/-- An insertion into a strictly increasing list whose head exceeds the new
element just prepends it. -/
theorem sortNat_of_sorted (l : List ℕ) (hs : l.Chain' (· < ·)) :
    sortNat l = l := by
  induction l with
  | nil => rfl
  | cons x xs ih =>
    have : sortNat (x :: xs) = insertNat x (sortNat xs) := rfl
    rw [this, ih hs.tail]
    cases xs with
    | nil => rfl
    | cons y ys =>
      have hxy : x < y := (List.chain'_cons.mp hs).1
      rw [insertNat, if_pos (Nat.le_of_lt hxy)]

/-- Adjacent deduplication is the identity on strictly increasing lists. -/
theorem dedupAdj_of_sorted (l : List ℕ) (hs : l.Chain' (· < ·)) :
    dedupAdj l = l := by
  induction l with
  | nil => rfl
  | cons x xs ih =>
    cases xs with
    | nil => rfl
    | cons y ys =>
      have hxy : x < y := (List.chain'_cons.mp hs).1
      rw [dedupAdj, if_neg (by omega)]
      rw [ih hs.tail]

/-- Counterexample to C3: the detector is not invariant under permutation
of the available-date list, and does not equal the result on the sorted,
deduplicated list: `[1, 0]` is a permutation of its sorted form `[0, 1]`,
yet with `nights = 2` the former yields no range and the latter one. -/
theorem consecutive_nights_not_order_invariant :
    List.Perm [1, 0] [0, 1]
    ∧ sortDedup [1, 0] = [0, 1]
    ∧ consecutive_nights [1, 0] 2 = []
    ∧ consecutive_nights (sortDedup [1, 0]) 2 = [(0, 2)]
    ∧ consecutive_nights [1, 0] 2 ≠ consecutive_nights (sortDedup [1, 0]) 2 := by
  refine ⟨by decide, by decide, by decide, by decide, by decide⟩

/-- C3 (amended): the detector never sorts or deduplicates, so its result
depends on the order of the input list; whenever the input list is
already strictly increasing (the normalisation is then a no-op), its
result agrees with the result on the sorted deduplicated list. -/
theorem consecutive_nights_sorted_input (l : List ℕ) (n : ℕ)
    (hs : l.Chain' (· < ·)) :
    consecutive_nights l n = consecutive_nights (sortDedup l) n := by
  rw [sortDedup, sortNat_of_sorted l hs, dedupAdj_of_sorted l hs]

/-- Witness for `consecutive_nights_sorted_input` on the sorted list
`[0, 1]`. -/
theorem consecutive_nights_sorted_input_witness :
    consecutive_nights [0, 1] 2 = consecutive_nights (sortDedup [0, 1]) 2 :=
  consecutive_nights_sorted_input [0, 1] 2
    (List.chain'_cons.mpr ⟨by decide, List.chain'_singleton 1⟩)

/-- C9: `merge_consecutive_dates` mutates the caller's dictionaries: with
input `[{start: 1, end: 2}, {start: 3, end: 4}]` (adjacent ranges), the
call overwrites the first dictionary's `"end"` from 2 to 4 in place, so the
caller's list no longer holds its original values. -/
theorem merge_consecutive_dates_mutates_input :
    (merge_consecutive_dates_inplace [⟨1, 2⟩, ⟨3, 4⟩]).1 = [⟨1, 4⟩, ⟨3, 4⟩]
    ∧ (([⟨1, 2⟩, ⟨3, 4⟩] : List DateRange).getD 0 ⟨0, 0⟩).stop = 2
    ∧ (((merge_consecutive_dates_inplace [⟨1, 2⟩, ⟨3, 4⟩]).1.getD 0 ⟨0, 0⟩).stop = 4)
    ∧ (merge_consecutive_dates_inplace [⟨1, 2⟩, ⟨3, 4⟩]).1 ≠ [⟨1, 2⟩, ⟨3, 4⟩] := by
  refine ⟨by decide, by decide, by decide, by decide⟩

/-- Three consecutive calendar days cannot all be Fridays or Saturdays, so
a list of weekend ordinals has no consecutive run of length 3 or more and
the detector finds nothing for `nights ≥ 3`. -/
theorem consecutive_nights_all_weekend_nil (avail : List ℕ) (n : ℕ)
    (hw : ∀ d ∈ avail, is_weekend d = true) (h3 : 3 ≤ n) :
    consecutive_nights avail n = [] := by
  rw [consecutive_nights, List.flatten_eq_nil_iff]
  intro e he
  rw [List.mem_map] at he
  obtain ⟨r, hr, rfl⟩ := he
  rw [emitRun]
  rw [if_pos]
  by_contra hlen
  push_neg at hlen
  have hc := splitConsec_chain avail r hr
  have hmem : ∀ i, i < r.length → r.getD i 0 ∈ avail := by
    intro i hi
    rw [List.getD_eq_getElem r 0 hi]
    have : r[i] ∈ r := List.getElem_mem hi
    have hsub : r ∈ splitConsec avail := hr
    have : r[i] ∈ (splitConsec avail).flatten :=
      List.mem_flatten.mpr ⟨r, hsub, this⟩
    rwa [splitConsec_flatten] at this
  have h0 : (0 : ℕ) < r.length := by omega
  have h1 : (1 : ℕ) < r.length := by omega
  have h2 : (2 : ℕ) < r.length := by omega
  have e1 := chain_getD r hc 1 h1
  have e2 := chain_getD r hc 2 h2
  have w0 := hw _ (hmem 0 h0)
  have w1 := hw _ (hmem 1 h1)
  have w2 := hw _ (hmem 2 h2)
  rw [is_weekend, weekday] at w0 w1 w2
  simp only [Bool.or_eq_true, beq_iff_eq] at w0 w1 w2
  omega

/-- C10: with `weekends_only` and an effective (post-clamp) nights of at
least 3, `get_num_available_sites` reports zero available sites and an
empty ranges map, whatever the availability input and window. -/
theorem get_num_available_sites_weekends_only_empty
    (park_information : List (ℕ × List ℕ)) (start_date end_date : ℕ)
    (nights : Option ℤ)
    (h3 : 3 ≤ clampNights nights (end_date - start_date)) :
    get_num_available_sites park_information start_date end_date nights true =
      (0, park_information.length, []) := by
  rw [get_num_available_sites]
  have hstep : ∀ acc site,
      siteStep ((windowDates start_date end_date).filter is_weekend)
        (clampNights nights (end_date - start_date)) acc site = acc := by
    intro acc site
    rw [siteStep]
    by_cases hd :
        (site.2.filter (fun d => decide
          (d ∈ (windowDates start_date end_date).filter is_weekend))).isEmpty
    · rw [if_pos hd]
    · rw [if_neg hd]
      have hnil : consecutive_nights
          (site.2.filter (fun d => decide
            (d ∈ (windowDates start_date end_date).filter is_weekend)))
          (clampNights nights (end_date - start_date)) = [] := by
        apply consecutive_nights_all_weekend_nil _ _ _ h3
        intro d hdm
        rw [List.mem_filter] at hdm
        have : d ∈ (windowDates start_date end_date).filter is_weekend :=
          of_decide_eq_true hdm.2
        exact (List.mem_filter.mp this).2
      rw [hnil]
      rfl
  have hfold : ∀ (l : List (ℕ × List ℕ)) (acc : ℕ × List (ℕ × List DateRange)),
      l.foldl (siteStep ((windowDates start_date end_date).filter is_weekend)
        (clampNights nights (end_date - start_date))) acc = acc := by
    intro l
    induction l with
    | nil => intro acc; rfl
    | cons s t ih => intro acc; rw [List.foldl_cons, hstep acc s]; exact ih acc
  simp only [if_true]
  rw [hfold]

/-- Witness for `get_num_available_sites_weekends_only_empty`: one site
available on three weekdays of a 5-day window, nights clamped to 5. -/
theorem get_num_available_sites_weekends_only_empty_witness :
    get_num_available_sites [(100, [1, 2, 3])] 0 5 none true = (0, 1, []) :=
  get_num_available_sites_weekends_only_empty [(100, [1, 2, 3])] 0 5 none
    (by decide)

/-- After `setdefaultAppend`, the key is always present and its value is
the previous value (empty if the key was absent) extended by `vs`. -/
theorem setdefaultAppend_lookup_self (data : List (String × List String))
    (k : String) (vs : List String) :
    (setdefaultAppend data k vs).lookup k =
      some ((data.lookup k).getD [] ++ vs) := by
  induction data with
  | nil => simp [setdefaultAppend, List.lookup]
  | cons e t ih =>
    obtain ⟨k2, v⟩ := e
    rw [setdefaultAppend]
    by_cases h : k2 = k
    · subst h
      simp [List.lookup]
    · rw [if_neg h]
      have hbeq : (k == k2) = false := by
        rw [beq_eq_false_iff_ne]
        exact fun he => h he.symm
      simp [List.lookup, hbeq, ih]

/-- `setdefaultAppend` at one key does not change lookups at other keys. -/
theorem setdefaultAppend_lookup_other (data : List (String × List String))
    (k k' : String) (vs : List String) (h : k' ≠ k) :
    (setdefaultAppend data k vs).lookup k' = data.lookup k' := by
  induction data with
  | nil =>
    have hbeq : (k' == k) = false := beq_eq_false_iff_ne.mpr h
    simp [setdefaultAppend, List.lookup, hbeq]
  | cons e t ih =>
    obtain ⟨k2, v⟩ := e
    rw [setdefaultAppend]
    by_cases h2 : k2 = k
    · subst h2
      have hbeq : (k' == k2) = false := beq_eq_false_iff_ne.mpr h
      simp [List.lookup, hbeq]
    · rw [if_neg h2]
      simp [List.lookup, ih]

/-- Folding one monthly payload: if every entry of the month for campsite
`cid` contributes no qualifying date and `cid` is not excluded, then the
`cid` association stays `none` or `some []`, an existing `some []` is kept,
and it becomes `some []` as soon as the month mentions `cid`. -/
theorem monthFold_zero (ct : Option String) (ids : List ℤ)
    (excl : List String) (cid : String)
    (hexcl : cid ∉ excl) :
    ∀ (month : List (String × CampsiteData))
      (data : List (String × List String)),
    (∀ e ∈ month, e.1 = cid → availableOf e.2 ct ids = []) →
    (data.lookup cid = none ∨ data.lookup cid = some []) →
    (((month.foldl (parkEntryStep ct ids excl) data).lookup cid = none
       ∨ (month.foldl (parkEntryStep ct ids excl) data).lookup cid = some [])
     ∧ (data.lookup cid = some [] →
        (month.foldl (parkEntryStep ct ids excl) data).lookup cid = some [])
     ∧ ((∃ e ∈ month, e.1 = cid) →
        (month.foldl (parkEntryStep ct ids excl) data).lookup cid = some [])) := by
  intro month
  induction month with
  | nil =>
    intro data hz hP
    refine ⟨hP, fun h => h, ?_⟩
    rintro ⟨e, he, _⟩
    simp at he
  | cons e t ih =>
    intro data hz hP
    obtain ⟨k, cd0⟩ := e
    rw [List.foldl_cons]
    by_cases hk : k = cid
    · subst hk
      have he : availableOf cd0 ct ids = [] :=
        hz (k, cd0) (List.mem_cons_self _ _) rfl
      have hstep : parkEntryStep ct ids excl data (k, cd0) =
          setdefaultAppend data k [] := by
        rw [parkEntryStep, if_neg (by simp [hexcl]), he]
      have hlook : (setdefaultAppend data k []).lookup k = some [] := by
        rw [setdefaultAppend_lookup_self]
        rcases hP with h | h <;> simp [h]
      have ihr := ih (setdefaultAppend data k [])
        (fun e2 he2 hcd => hz e2 (List.mem_cons_of_mem _ he2) hcd)
        (Or.inr hlook)
      rw [hstep]
      exact ⟨ihr.1, fun _ => ihr.2.1 hlook, fun _ => ihr.2.1 hlook⟩
    · have hstep : (parkEntryStep ct ids excl data (k, cd0)).lookup cid =
          data.lookup cid := by
        rw [parkEntryStep]
        split
        · rfl
        · exact setdefaultAppend_lookup_other data k cid _ (Ne.symm hk)
      have ihr := ih (parkEntryStep ct ids excl data (k, cd0))
        (fun e2 he2 hcd => hz e2 (List.mem_cons_of_mem _ he2) hcd)
        (by rw [hstep]; exact hP)
      refine ⟨ihr.1, fun h => ihr.2.1 (by rw [hstep]; exact h), ?_⟩
      rintro ⟨e2, he2, hcd⟩
      rcases List.mem_cons.mp he2 with rfl | he2
      · exact absurd hcd hk
      · exact ihr.2.2 ⟨e2, he2, hcd⟩

/-- Counterexample to C2: a campsite whose every date is filtered out
(here status "Reserved", so zero qualifying dates) still appears as a key
of the aggregator's output, bound to the empty list, because
`data.setdefault(campsite_id, [])` runs before any date filtering. -/
theorem get_park_information_keeps_zero_date_site :
    get_park_information
        [[("100", ⟨100, "STANDARD", [("2024-06-07", "Reserved")]⟩)]]
        none [] [] = [("100", [])]
    ∧ (get_park_information
        [[("100", ⟨100, "STANDARD", [("2024-06-07", "Reserved")]⟩)]]
        none [] []).lookup "100" = some [] := by
  refine ⟨by decide, by decide⟩

/-- C2 (amended): a campsite that occurs in some monthly payload and is
not excluded always appears as a key of the aggregator's output; when all
its dates are filtered out it is bound to `some []` rather than absent. -/
theorem get_park_information_zero_dates
    (api_data : List (List (String × CampsiteData)))
    (ct : Option String) (ids : List ℤ) (excl : List String) (cid : String)
    (hexcl : cid ∉ excl)
    (hzero : ∀ m ∈ api_data, ∀ e ∈ m, e.1 = cid →
      availableOf e.2 ct ids = [])
    (hmem : ∃ m ∈ api_data, ∃ e ∈ m, e.1 = cid) :
    (get_park_information api_data ct ids excl).lookup cid = some [] := by
  rw [get_park_information]
  suffices h : ∀ (months : List (List (String × CampsiteData)))
      (data : List (String × List String)),
      (∀ m ∈ months, ∀ e ∈ m, e.1 = cid → availableOf e.2 ct ids = []) →
      (data.lookup cid = none ∨ data.lookup cid = some []) →
      (((months.foldl (fun data month_data =>
          month_data.foldl (parkEntryStep ct ids excl) data) data).lookup cid
            = none
        ∨ (months.foldl (fun data month_data =>
          month_data.foldl (parkEntryStep ct ids excl) data) data).lookup cid
            = some [])
       ∧ (data.lookup cid = some [] →
          (months.foldl (fun data month_data =>
            month_data.foldl (parkEntryStep ct ids excl) data) data).lookup cid
              = some [])
       ∧ ((∃ m ∈ months, ∃ e ∈ m, e.1 = cid) →
          (months.foldl (fun data month_data =>
            month_data.foldl (parkEntryStep ct ids excl) data) data).lookup cid
              = some [])) by
    exact (h api_data [] hzero (Or.inl rfl)).2.2 hmem
  intro months
  induction months with
  | nil =>
    intro data hz hP
    refine ⟨hP, fun h => h, ?_⟩
    rintro ⟨m, hm, _⟩
    simp at hm
  | cons mo t ih =>
    intro data hz hP
    rw [List.foldl_cons]
    have hm := monthFold_zero ct ids excl cid hexcl mo data
      (fun e he hcd => hz mo (List.mem_cons_self _ _) e he hcd) hP
    have ihr := ih (mo.foldl (parkEntryStep ct ids excl) data)
      (fun m hmm e he hcd => hz m (List.mem_cons_of_mem _ hmm) e he hcd) hm.1
    refine ⟨ihr.1, fun h => ihr.2.1 (hm.2.1 h), ?_⟩
    rintro ⟨m, hmm, e, he, hcd⟩
    rcases List.mem_cons.mp hmm with rfl | hmm
    · exact ihr.2.1 (hm.2.2 ⟨e, he, hcd⟩)
    · exact ihr.2.2 ⟨m, hmm, e, he, hcd⟩

/-- Witness for `get_park_information_zero_dates` at the counterexample
input: the zero-date site "100" is present with the empty list. -/
theorem get_park_information_zero_dates_witness :
    (get_park_information
        [[("100", ⟨100, "STANDARD", [("2024-06-07", "Reserved")]⟩)]]
        none [] []).lookup "100" = some [] :=
  get_park_information_zero_dates
    [[("100", ⟨100, "STANDARD", [("2024-06-07", "Reserved")]⟩)]]
    none [] [] "100" (by decide) (by decide) (by decide)

/-- Coverage distributes over the head of a list. -/
theorem covers_cons (a : DateRange) (l : List DateRange) (n : ℕ) :
    covers (a :: l) n ↔ (a.start ≤ n ∧ n ≤ a.stop) ∨ covers l n := by
  simp [covers, List.mem_cons, or_and_right, exists_or]

/-- Coverage only depends on the members of the list. -/
theorem covers_perm (l1 l2 : List DateRange) (hp : l1.Perm l2) (n : ℕ) :
    covers l1 n ↔ covers l2 n := by
  constructor
  · rintro ⟨r, hr, h⟩
    exact ⟨r, hp.mem_iff.mp hr, h⟩
  · rintro ⟨r, hr, h⟩
    exact ⟨r, hp.mem_iff.mpr hr, h⟩

/-- The first range produced by `mergeFold` keeps the start of `last`. -/
theorem mergeFold_head (last : DateRange) (rest : List DateRange) :
    ∃ e t, mergeFold last rest = ⟨last.start, e⟩ :: t := by
  induction rest generalizing last with
  | nil => exact ⟨last.stop, [], rfl⟩
  | cons c cs ih =>
    rw [mergeFold]
    by_cases h : c.start ≤ last.stop + 1
    · rw [if_pos h]
      exact ih ⟨last.start, max last.stop c.stop⟩
    · rw [if_neg h]
      exact ⟨last.stop, mergeFold c cs, rfl⟩

/-- On a start-sorted, well-formed input, `mergeFold` produces a gapped
(`next.start > previous.end + 1`) list of well-formed ranges. -/
theorem mergeFold_gapped (last : DateRange) (rest : List DateRange)
    (hs : List.Sorted rleStart (last :: rest))
    (hwf : ∀ r ∈ last :: rest, r.start ≤ r.stop) :
    (mergeFold last rest).Chain' (fun a b => a.stop + 1 < b.start)
    ∧ (∀ r ∈ mergeFold last rest, r.start ≤ r.stop) := by
  induction rest generalizing last with
  | nil =>
    refine ⟨List.chain'_singleton last, ?_⟩
    intro r hr
    rw [mergeFold, List.mem_singleton] at hr
    subst hr
    exact hwf r (List.mem_cons_self _ _)
  | cons c cs ih =>
    have hs1 := List.sorted_cons.mp hs
    have hs2 := List.sorted_cons.mp hs1.2
    rw [mergeFold]
    by_cases h : c.start ≤ last.stop + 1
    · rw [if_pos h]
      apply ih ⟨last.start, max last.stop c.stop⟩
      · refine List.sorted_cons.mpr ⟨?_, hs2.2⟩
        intro b hb
        exact hs1.1 b (List.mem_cons_of_mem _ hb)
      · intro r hr
        rcases List.mem_cons.mp hr with rfl | hr
        · have := hwf last (List.mem_cons_self _ _)
          simp only []
          omega
        · exact hwf r (List.mem_cons_of_mem _ (List.mem_cons_of_mem _ hr))
    · rw [if_neg h]
      have ihr := ih c hs1.2
        (fun r hr => hwf r (List.mem_cons_of_mem _ hr))
      obtain ⟨e, t, heq⟩ := mergeFold_head c cs
      constructor
      · rw [heq]
        rw [heq] at ihr
        refine List.chain'_cons.mpr ⟨?_, ihr.1⟩
        simp only []
        omega
      · intro r hr
        rcases List.mem_cons.mp hr with rfl | hr
        · exact hwf r (List.mem_cons_self _ _)
        · exact ihr.2 r hr

/-- On a start-sorted, well-formed input, `mergeFold` covers exactly the
nights covered by its input. -/
theorem mergeFold_covers (last : DateRange) (rest : List DateRange)
    (hs : List.Sorted rleStart (last :: rest))
    (hwf : ∀ r ∈ last :: rest, r.start ≤ r.stop) :
    ∀ n, covers (mergeFold last rest) n ↔ covers (last :: rest) n := by
  induction rest generalizing last with
  | nil => intro n; exact Iff.rfl
  | cons c cs ih =>
    intro n
    have hs1 := List.sorted_cons.mp hs
    have hs2 := List.sorted_cons.mp hs1.2
    rw [mergeFold]
    by_cases h : c.start ≤ last.stop + 1
    · rw [if_pos h]
      have hsort2 : List.Sorted rleStart (⟨last.start, max last.stop c.stop⟩ :: cs) := by
        refine List.sorted_cons.mpr ⟨?_, hs2.2⟩
        intro b hb
        exact hs1.1 b (List.mem_cons_of_mem _ hb)
      have hwf2 : ∀ r ∈ (⟨last.start, max last.stop c.stop⟩ :: cs : List DateRange),
          r.start ≤ r.stop := by
        intro r hr
        rcases List.mem_cons.mp hr with rfl | hr
        · have := hwf last (List.mem_cons_self _ _)
          simp only []
          omega
        · exact hwf r (List.mem_cons_of_mem _ (List.mem_cons_of_mem _ hr))
      rw [ih ⟨last.start, max last.stop c.stop⟩ hsort2 hwf2 n]
      rw [covers_cons, covers_cons, covers_cons]
      have h1 : rleStart last c := hs1.1 c (List.mem_cons_self _ _)
      have h2 := hwf last (List.mem_cons_self _ _)
      have h3 := hwf c (List.mem_cons_of_mem _ (List.mem_cons_self _ _))
      rw [rleStart] at h1
      simp only []
      rcases Nat.le_total last.stop c.stop with hmc | hmc
      · rw [Nat.max_eq_right hmc]
        constructor
        · rintro (⟨p1, p2⟩ | hc)
          · rcases Nat.lt_or_ge last.stop n with hn | hn
            · exact Or.inr (Or.inl ⟨by omega, by omega⟩)
            · exact Or.inl ⟨p1, by omega⟩
          · exact Or.inr (Or.inr hc)
        · rintro (⟨p1, p2⟩ | ⟨p1, p2⟩ | hc)
          · exact Or.inl ⟨p1, by omega⟩
          · exact Or.inl ⟨by omega, p2⟩
          · exact Or.inr hc
      · rw [Nat.max_eq_left hmc]
        constructor
        · rintro (hc | hc)
          · exact Or.inl hc
          · exact Or.inr (Or.inr hc)
        · rintro (hc | ⟨p1, p2⟩ | hc)
          · exact Or.inl hc
          · exact Or.inl ⟨by omega, by omega⟩
          · exact Or.inr hc
    · rw [if_neg h]
      rw [covers_cons, covers_cons]
      have := ih c hs1.2 (fun r hr => hwf r (List.mem_cons_of_mem _ hr)) n
      rw [this, covers_cons]

/-- In a gapped, well-formed list, everything after the head starts
strictly beyond the head's end plus one. -/
theorem gapped_wf_tail_bound (a : DateRange) (t : List DateRange)
    (hg : (a :: t).Chain' (fun x y => x.stop + 1 < y.start))
    (hwf : ∀ r ∈ a :: t, r.start ≤ r.stop) :
    ∀ r ∈ t, a.stop + 1 < r.start := by
  induction t generalizing a with
  | nil => intro r hr; simp at hr
  | cons b t2 ih =>
    intro r hr
    have hab : a.stop + 1 < b.start := (List.chain'_cons.mp hg).1
    rcases List.mem_cons.mp hr with rfl | hr
    · exact hab
    · have hb := ih b (List.chain'_cons.mp hg).2
        (fun r2 hr2 => hwf r2 (List.mem_cons_of_mem _ hr2)) r hr
      have hbwf : b.start ≤ b.stop :=
        hwf b (List.mem_cons_of_mem _ (List.mem_cons_self _ _))
      omega

/-- A gapped, well-formed range list is determined by the set of nights it
covers: the minimal decomposition into non-adjacent ranges is unique. -/
theorem gapped_unique : ∀ (l1 l2 : List DateRange),
    l1.Chain' (fun x y => x.stop + 1 < y.start) →
    (∀ r ∈ l1, r.start ≤ r.stop) →
    l2.Chain' (fun x y => x.stop + 1 < y.start) →
    (∀ r ∈ l2, r.start ≤ r.stop) →
    (∀ n, covers l1 n ↔ covers l2 n) → l1 = l2 := by
  intro l1
  induction l1 with
  | nil =>
    intro l2 _ _ _ hwf2 hcov
    cases l2 with
    | nil => rfl
    | cons b t2 =>
      exfalso
      have hb : covers (b :: t2) b.start :=
        ⟨b, List.mem_cons_self _ _, le_refl _,
          hwf2 b (List.mem_cons_self _ _)⟩
      obtain ⟨r, hr, -⟩ := (hcov b.start).mpr hb
      simp at hr
  | cons a t1 ih =>
    intro l2 hg1 hwf1 hg2 hwf2 hcov
    cases l2 with
    | nil =>
      exfalso
      have ha : covers (a :: t1) a.start :=
        ⟨a, List.mem_cons_self _ _, le_refl _,
          hwf1 a (List.mem_cons_self _ _)⟩
      obtain ⟨r, hr, -⟩ := (hcov a.start).mp ha
      simp at hr
    | cons b t2 =>
      have lb1 : ∀ n, covers (a :: t1) n → a.start ≤ n := by
        rintro n ⟨r, hr, h1, h2⟩
        rcases List.mem_cons.mp hr with rfl | hr
        · exact h1
        · have := gapped_wf_tail_bound a t1 hg1 hwf1 r hr
          have := hwf1 a (List.mem_cons_self _ _)
          omega
      have lb2 : ∀ n, covers (b :: t2) n → b.start ≤ n := by
        rintro n ⟨r, hr, h1, h2⟩
        rcases List.mem_cons.mp hr with rfl | hr
        · exact h1
        · have := gapped_wf_tail_bound b t2 hg2 hwf2 r hr
          have := hwf2 b (List.mem_cons_self _ _)
          omega
      have ha : covers (a :: t1) a.start :=
        ⟨a, List.mem_cons_self _ _, le_refl _,
          hwf1 a (List.mem_cons_self _ _)⟩
      have hb : covers (b :: t2) b.start :=
        ⟨b, List.mem_cons_self _ _, le_refl _,
          hwf2 b (List.mem_cons_self _ _)⟩
      have heq_start : a.start = b.start :=
        Nat.le_antisymm (lb1 _ ((hcov b.start).mpr hb))
          (lb2 _ ((hcov a.start).mp ha))
      have nstop1 : ¬ covers (a :: t1) (a.stop + 1) := by
        rintro ⟨r, hr, h1, h2⟩
        rcases List.mem_cons.mp hr with rfl | hr
        · omega
        · have := gapped_wf_tail_bound a t1 hg1 hwf1 r hr
          omega
      have nstop2 : ¬ covers (b :: t2) (b.stop + 1) := by
        rintro ⟨r, hr, h1, h2⟩
        rcases List.mem_cons.mp hr with rfl | hr
        · omega
        · have := gapped_wf_tail_bound b t2 hg2 hwf2 r hr
          omega
      have hwa := hwf1 a (List.mem_cons_self _ _)
      have hwb := hwf2 b (List.mem_cons_self _ _)
      have heq_stop : a.stop = b.stop := by
        by_contra hne
        rcases Nat.lt_or_ge a.stop b.stop with hlt | hge
        · exact nstop1 ((hcov _).mpr
            ⟨b, List.mem_cons_self _ _, by omega, by omega⟩)
        · have hlt2 : b.stop < a.stop := by omega
          exact nstop2 ((hcov _).mp
            ⟨a, List.mem_cons_self _ _, by omega, by omega⟩)
      have hab : a = b := by
        cases a
        cases b
        simp only [] at heq_start heq_stop
        rw [heq_start, heq_stop]
      have hcovt : ∀ n, covers t1 n ↔ covers t2 n := by
        intro n
        constructor
        · rintro ⟨r, hr, h1, h2⟩
          have hbound := gapped_wf_tail_bound a t1 hg1 hwf1 r hr
          obtain ⟨r2, hr2, g1, g2⟩ := (hcov n).mp
            ⟨r, List.mem_cons_of_mem _ hr, h1, h2⟩
          rcases List.mem_cons.mp hr2 with rfl | hr2
          · exfalso
            omega
          · exact ⟨r2, hr2, g1, g2⟩
        · rintro ⟨r, hr, h1, h2⟩
          have hbound := gapped_wf_tail_bound b t2 hg2 hwf2 r hr
          obtain ⟨r2, hr2, g1, g2⟩ := (hcov n).mpr
            ⟨r, List.mem_cons_of_mem _ hr, h1, h2⟩
          rcases List.mem_cons.mp hr2 with rfl | hr2
          · exfalso
            omega
          · exact ⟨r2, hr2, g1, g2⟩
      rw [hab]
      rw [ih t2 ((List.chain'_cons'.mp hg1).2)
        (fun r hr => hwf1 r (List.mem_cons_of_mem _ hr))
        ((List.chain'_cons'.mp hg2).2)
        (fun r hr => hwf2 r (List.mem_cons_of_mem _ hr)) hcovt]

/-- The merger's output is gapped and well-formed for well-formed input. -/
theorem merge_consecutive_dates_gapped (l : List DateRange)
    (hwf : ∀ r ∈ l, r.start ≤ r.stop) :
    (merge_consecutive_dates l).Chain' (fun a b => a.stop + 1 < b.start)
    ∧ (∀ r ∈ merge_consecutive_dates l, r.start ≤ r.stop) := by
  rw [merge_consecutive_dates]
  cases h : sortByStart l with
  | nil => exact ⟨List.chain'_nil, by simp⟩
  | cons d ds =>
    have hsort : List.Sorted rleStart (d :: ds) := by
      rw [← h, sortByStart]
      exact List.sorted_insertionSort rleStart l
    have hperm : (d :: ds).Perm l := by
      rw [← h, sortByStart]
      exact List.perm_insertionSort rleStart l
    exact mergeFold_gapped d ds hsort
      (fun r hr => hwf r (hperm.mem_iff.mp hr))

/-- The merger covers exactly the nights covered by its input. -/
theorem merge_consecutive_dates_covers (l : List DateRange)
    (hwf : ∀ r ∈ l, r.start ≤ r.stop) :
    ∀ n, covers (merge_consecutive_dates l) n ↔ covers l n := by
  rw [merge_consecutive_dates]
  cases h : sortByStart l with
  | nil =>
    have hperm : ([] : List DateRange).Perm l := by
      rw [← h, sortByStart]
      exact List.perm_insertionSort rleStart l
    intro n
    exact covers_perm [] l hperm n
  | cons d ds =>
    have hsort : List.Sorted rleStart (d :: ds) := by
      rw [← h, sortByStart]
      exact List.sorted_insertionSort rleStart l
    have hperm : (d :: ds).Perm l := by
      rw [← h, sortByStart]
      exact List.perm_insertionSort rleStart l
    intro n
    rw [mergeFold_covers d ds hsort (fun r hr => hwf r (hperm.mem_iff.mp hr)) n]
    exact covers_perm _ l hperm n

/-- C5: on well-formed ranges (`start ≤ end`, the DateRange invariant),
`merge_consecutive_dates` is idempotent on already-minimal lists, is
invariant under permutation of its input, and always produces a minimal
ordered list of disjoint non-adjacent well-formed ranges
(`next.start > previous.end + 1 day` between consecutive outputs). -/
theorem merge_consecutive_dates_props (l l2 : List DateRange)
    (hwf : ∀ r ∈ l, r.start ≤ r.stop) :
    (l.Chain' (fun a b => a.stop + 1 < b.start) → merge_consecutive_dates l = l)
    ∧ (l.Perm l2 → merge_consecutive_dates l = merge_consecutive_dates l2)
    ∧ (merge_consecutive_dates l).Chain' (fun a b => a.stop + 1 < b.start)
    ∧ (∀ r ∈ merge_consecutive_dates l, r.start ≤ r.stop) := by
  obtain ⟨hg, hw⟩ := merge_consecutive_dates_gapped l hwf
  refine ⟨?_, ?_, hg, hw⟩
  · intro hmin
    exact gapped_unique (merge_consecutive_dates l) l hg hw hmin hwf
      (merge_consecutive_dates_covers l hwf)
  · intro hp
    have hwf2 : ∀ r ∈ l2, r.start ≤ r.stop :=
      fun r hr => hwf r (hp.mem_iff.mpr hr)
    obtain ⟨hg2, hw2⟩ := merge_consecutive_dates_gapped l2 hwf2
    apply gapped_unique _ _ hg hw hg2 hw2
    intro n
    rw [merge_consecutive_dates_covers l hwf n,
      merge_consecutive_dates_covers l2 hwf2 n]
    exact covers_perm l l2 hp n

/-- Witness for `merge_consecutive_dates_props`: a minimal two-range list
is returned unchanged, its reversal merges to the same result, and the
output is gapped. -/
theorem merge_consecutive_dates_props_witness :
    merge_consecutive_dates [⟨1, 2⟩, ⟨5, 6⟩] = [⟨1, 2⟩, ⟨5, 6⟩]
    ∧ merge_consecutive_dates [⟨1, 2⟩, ⟨5, 6⟩] =
        merge_consecutive_dates [⟨5, 6⟩, ⟨1, 2⟩]
    ∧ (merge_consecutive_dates [⟨1, 2⟩, ⟨5, 6⟩]).Chain'
        (fun a b => a.stop + 1 < b.start) :=
  have h := merge_consecutive_dates_props [⟨1, 2⟩, ⟨5, 6⟩] [⟨5, 6⟩, ⟨1, 2⟩]
    (by decide)
  ⟨h.1 (List.chain'_cons.mpr ⟨by decide, List.chain'_singleton _⟩),
   h.2.1 (by decide), h.2.2.1⟩

/-- Lexicographic order is irreflexive. -/
theorem charListLt_irrefl : ∀ l, charListLt l l = false := by
  intro l
  induction l with
  | nil => rfl
  | cons c cs ih =>
    rw [charListLt, if_neg (Nat.lt_irrefl _), if_neg (Nat.lt_irrefl _)]
    exact ih

/-- Lexicographic order is transitive. -/
theorem charListLt_trans : ∀ a b c, charListLt a b = true →
    charListLt b c = true → charListLt a c = true := by
  intro a
  induction a with
  | nil =>
    intro b c h1 h2
    cases b with
    | nil => simp [charListLt] at h1
    | cons y ys =>
      cases c with
      | nil => simp [charListLt] at h2
      | cons z zs => rfl
  | cons x xs ih =>
    intro b c h1 h2
    cases b with
    | nil => simp [charListLt] at h1
    | cons y ys =>
      cases c with
      | nil => simp [charListLt] at h2
      | cons z zs =>
        rw [charListLt] at h1 h2 ⊢
        by_cases hxy : x.toNat < y.toNat
        · by_cases hyz : y.toNat < z.toNat
          · rw [if_pos (by omega)]
          · by_cases hzy : z.toNat < y.toNat
            · rw [if_neg hyz, if_pos hzy] at h2
              exact absurd h2 (by simp)
            · rw [if_pos (by omega)]
        · by_cases hyx : y.toNat < x.toNat
          · rw [if_neg hxy, if_pos hyx] at h1
            exact absurd h1 (by simp)
          · rw [if_neg hxy, if_neg hyx] at h1
            by_cases hyz : y.toNat < z.toNat
            · rw [if_pos (by omega)]
            · by_cases hzy : z.toNat < y.toNat
              · rw [if_neg hyz, if_pos hzy] at h2
                exact absurd h2 (by simp)
              · rw [if_neg hyz, if_neg hzy] at h2
                rw [if_neg (by omega), if_neg (by omega)]
                exact ih ys zs h1 h2

/-- Lexicographic order is connected: two lists are equal or comparable. -/
theorem charListLt_conn : ∀ a b : List Char,
    a = b ∨ charListLt a b = true ∨ charListLt b a = true := by
  intro a
  induction a with
  | nil =>
    intro b
    cases b with
    | nil => exact Or.inl rfl
    | cons y ys => exact Or.inr (Or.inl rfl)
  | cons x xs ih =>
    intro b
    cases b with
    | nil => exact Or.inr (Or.inr rfl)
    | cons y ys =>
      by_cases hxy : x.toNat < y.toNat
      · refine Or.inr (Or.inl ?_)
        rw [charListLt, if_pos hxy]
      · by_cases hyx : y.toNat < x.toNat
        · refine Or.inr (Or.inr ?_)
          rw [charListLt, if_pos hyx]
        · have hx : x = y := by
            have hn : x.toNat = y.toNat := by omega
            exact Char.ext (UInt32.ext hn)
          subst hx
          rcases ih ys with h | h | h
          · exact Or.inl (by rw [h])
          · refine Or.inr (Or.inl ?_)
            rw [charListLt, if_neg (by omega), if_neg (by omega)]
            exact h
          · refine Or.inr (Or.inr ?_)
            rw [charListLt, if_neg (by omega), if_neg (by omega)]
            exact h

/-- String order: irreflexive. -/
theorem strLt_irrefl (s : String) : strLt s s = false :=
  charListLt_irrefl s.data

/-- String order: transitive. -/
theorem strLt_trans (a b c : String) (h1 : strLt a b = true)
    (h2 : strLt b c = true) : strLt a c = true :=
  charListLt_trans a.data b.data c.data h1 h2

/-- String order: connected. -/
theorem strLt_conn (a b : String) :
    a = b ∨ strLt a b = true ∨ strLt b a = true := by
  rcases charListLt_conn a.data b.data with h | h | h
  · left
    cases a
    cases b
    exact congrArg String.mk h
  · exact Or.inr (Or.inl h)
  · exact Or.inr (Or.inr h)

/-- Canonicalisation is invariant under permutation of fields with
distinct keys: the key-sorted field lists coincide. -/
theorem sortFields_eq_of_perm (fs gs : List (String × Json))
    (hp : fs.Perm gs) (hnd : (fs.map Prod.fst).Nodup) :
    sortFields fs = sortFields gs := by
  haveI htot : IsTotal (String × Json) fieldLe := by
    constructor
    intro a b
    by_cases h : strLt b.1 a.1 = true
    · right
      intro hab
      have := strLt_trans _ _ _ hab h
      rw [strLt_irrefl] at this
      exact absurd this (by simp)
    · left
      exact h
  haveI htr : IsTrans (String × Json) fieldLe := by
    constructor
    intro a b c h1 h2
    simp only [fieldLe] at h1 h2 ⊢
    intro hca
    rcases strLt_conn b.1 c.1 with h | h | h
    · rw [← h] at hca
      exact h1 hca
    · exact h1 (strLt_trans _ _ _ h hca)
    · exact h2 h
  have hs1 : List.Sorted fieldLe (sortFields fs) :=
    List.sorted_insertionSort fieldLe fs
  have hs2 : List.Sorted fieldLe (sortFields gs) :=
    List.sorted_insertionSort fieldLe gs
  have hp2 : (sortFields fs).Perm (sortFields gs) :=
    ((List.perm_insertionSort fieldLe fs).trans hp).trans
      (List.perm_insertionSort fieldLe gs).symm
  have hnd1 : ((sortFields fs).map Prod.fst).Nodup :=
    (((List.perm_insertionSort fieldLe fs).map Prod.fst).nodup_iff).mpr hnd
  have hnd2 : ((sortFields gs).map Prod.fst).Nodup := by
    refine (((List.perm_insertionSort fieldLe gs).map Prod.fst).nodup_iff).mpr ?_
    exact ((hp.map Prod.fst).nodup_iff).mp hnd
  have upgrade : ∀ (l : List (String × Json)), List.Sorted fieldLe l →
      (l.map Prod.fst).Nodup →
      List.Sorted (fun a b : String × Json => strLt a.1 b.1 = true) l := by
    intro l hsor hn
    have hne : l.Pairwise (fun a b => a.1 ≠ b.1) :=
      (List.pairwise_map).mp hn
    have hand := List.Pairwise.and hsor hne
    refine hand.imp ?_
    intro a b hab
    rcases strLt_conn a.1 b.1 with h | h | h
    · exact absurd h hab.2
    · exact h
    · exact absurd h hab.1
  haveI : IsAntisymm (String × Json)
      (fun a b : String × Json => strLt a.1 b.1 = true) := by
    constructor
    intro a b h1 h2
    have := strLt_trans _ _ _ h1 h2
    rw [strLt_irrefl] at this
    exact absurd this (by simp)
  exact List.eq_of_perm_of_sorted hp2 (upgrade _ hs1 hnd1) (upgrade _ hs2 hnd2)

/-- Two decoded objects with the same fields in different key order are the
same decoded value. -/
theorem mkObj_perm (fs gs : List (String × Json)) (hp : fs.Perm gs)
    (hnd : (fs.map Prod.fst).Nodup) : mkObj fs = mkObj gs :=
  congrArg Json.obj (sortFields_eq_of_perm fs gs hp hnd)

/-- C6: the differ reports a change iff the decoded values differ
structurally; a malformed prior snapshot (decoded to `None`) always counts
as changed against the snapshot object; permuting object keys never
triggers a change. -/
theorem snapshot_differ_spec :
    (∀ old_json_data new_json_data : Json,
      snapshot_changed old_json_data new_json_data = true ↔
        old_json_data ≠ new_json_data)
    ∧ (∀ fs : List (String × Json),
        snapshot_changed Json.null (Json.obj fs) = true)
    ∧ (∀ fs gs : List (String × Json), fs.Perm gs →
        (fs.map Prod.fst).Nodup →
        snapshot_changed (mkObj fs) (mkObj gs) = false) := by
  refine ⟨?_, ?_, ?_⟩
  · intro o n
    rw [snapshot_changed]
    simp
  · intro fs
    rw [snapshot_changed]
    simp
  · intro fs gs hp hnd
    rw [snapshot_changed, mkObj_perm fs gs hp hnd]
    simp

/-- Witness for `snapshot_differ_spec`: two key orders of the same
two-field object are decoded equal and the differ reports no change. -/
theorem snapshot_differ_spec_witness :
    snapshot_changed (mkObj [("a", Json.null), ("b", Json.num 1)])
      (mkObj [("b", Json.num 1), ("a", Json.null)]) = false :=
  snapshot_differ_spec.2.2 [("a", Json.null), ("b", Json.num 1)]
    [("b", Json.num 1), ("a", Json.null)] (by decide) (by decide)

/-- C4 fails on the code: with no prior `campsites.json`, `main` writes
`json.dumps(output, indent=4)` where `output` is already the serialized
snapshot string, so the stored value decodes to a JSON *string*, not the
snapshot object; an identical run immediately afterwards therefore
reports a change instead of none. -/
theorem snapshot_first_run_double_encodes :
    (snapshot_step none (Json.obj [])).2.1 = true
    ∧ (snapshot_step none (Json.obj [])).2.2 = some (Json.str "\x7b\x7d")
    ∧ some (Json.str "\x7b\x7d") ≠ some (Json.obj [])
    ∧ (snapshot_step ((snapshot_step none (Json.obj [])).2.2)
        (Json.obj [])).1 = true := by
  refine ⟨rfl, by decide, by decide, by decide⟩
